import Mathlib

/-!
# Verification of the LCM sequence-counting program

This file is a shallow embedding of `src/lcm_solution.py`, which counts,
for positive integers `n` and `y`, the number of length-`n` sequences of
positive integers whose least common multiple is exactly `y`, modulo
`MOD = 10^9 + 7`.

The Python loops are embedded as fuel-based structural recursions; in every
case the fuel argument is chosen large enough (and proved so below) that the
fuel never runs out, and the out-of-fuel branch is defined to coincide with
the loop-exit branch, so the embedded functions agree with the source loops
on all inputs.

The mathematical model of the quantity being computed is `lcmSeqs n y`, the
finset of length-`n` sequences of positive integers with lcm exactly `y`
(all such sequences take values in `[1, y]` because each entry divides the
lcm).
-/

/-- `MOD = 10**9 + 7`, the modulus used by the program. -/
def MOD : ℕ := 1000000007

/-- Inner loop of `prime_factors`: `while n % d == 0: count += 1; n //= d`.
Returns the multiplicity of `d` in `n` together with the reduced value.
Fuel-based; with fuel at least `n` (and `1 < d`, `0 < n`) the fuel never
runs out, since `n` strictly shrinks at each division. -/
def divideOutF : ℕ → ℕ → ℕ → ℕ × ℕ
  | 0, _, n => (0, n)
  | f + 1, d, n =>
    if 0 < n ∧ 1 < d ∧ n % d = 0 then
      let r := divideOutF f d (n / d)
      (r.1 + 1, r.2)
    else (0, n)

/-- The inner division loop of `prime_factors`, with canonical fuel `n`. -/
def divideOut (d n : ℕ) : ℕ × ℕ := divideOutF n d n

/-- Outer loop of `prime_factors`: `while d * d <= n`, dividing out each
trial divisor `d` and recording `(d, multiplicity)` when the multiplicity is
positive; after the loop, a remaining value `> 1` is recorded with
multiplicity 1.  The out-of-fuel branch coincides with the loop-exit branch
(provably never taken when the fuel dominates `n - d`). -/
def factorAuxF : ℕ → ℕ → ℕ → List (ℕ × ℕ)
  | 0, n, _ => if 1 < n then [(n, 1)] else []
  | f + 1, n, d =>
    if d * d ≤ n then
      let r := divideOut d n
      (if r.1 = 0 then [] else [(d, r.1)]) ++ factorAuxF f r.2 (d + 1)
    else if 1 < n then [(n, 1)] else []

/-- `prime_factors(n)` from the source: the prime factorization of `n` as an
association list (prime, exponent), in increasing order of primes, embedding
the Python dict in its insertion order. -/
def prime_factors (n : ℕ) : List (ℕ × ℕ) := factorAuxF n n 2

/-- Loop of `power_mod`: repeated squaring.  At each iteration the current
low bit of the exponent decides whether the accumulator is multiplied by the
current base; then the exponent is halved and the base squared.  Fuel-based;
fuel `exp` suffices since the exponent at least halves each iteration. -/
def powerModAuxF : ℕ → ℕ → ℕ → ℕ → ℕ → ℕ
  | 0, _, _, result, _ => result
  | f + 1, base, e, result, m =>
    if 0 < e then
      powerModAuxF f ((base * base) % m) (e / 2)
        (if e % 2 = 1 then (result * base) % m else result) m
    else result

/-- `power_mod(base, exp, mod)` from the source: binary exponentiation,
reducing the base modulo `m` before the loop and starting from result 1. -/
def power_mod (base e m : ℕ) : ℕ := powerModAuxF e (base % m) e 1 m

/-- `bin(mask).count('1')` from the source: the number of 1 bits of `mask`.
Fuel-based with canonical fuel `mask`. -/
def bitCountF : ℕ → ℕ → ℕ
  | 0, _ => 0
  | f + 1, n => if 0 < n then bitCountF f (n / 2) + n % 2 else 0

/-- Number of 1 bits of a natural number (popcount). -/
def bitCount (n : ℕ) : ℕ := bitCountF n n

/-- The `reduced_divisor_count` computation of `count_sequences`: for the
factor list entry at index `i`, the per-prime factor is `max 1 e` when bit
`i` of `mask` is set and `e + 1` otherwise; the results are multiplied.
The index `i` is threaded along the list exactly as the source loop
`for i in range(num_primes)` does. -/
def reduced_divisor_count : List (ℕ × ℕ) → ℕ → ℕ → ℕ
  | [], _, _ => 1
  | pe :: rest, mask, i =>
    (if mask &&& (1 <<< i) ≠ 0 then max 1 pe.2 else pe.2 + 1) *
      reduced_divisor_count rest mask (i + 1)

/-- One iteration of the inclusion-exclusion loop of `count_sequences`:
subtract (with the `+ MOD` guard) when the popcount of `mask` is odd, add
otherwise, reducing modulo `MOD` each time.  The source computes
`(result - sequences + MOD) % MOD`; since `sequences < MOD`, this equals
`(result + MOD - sequences) % MOD`, which is the form used here so that
natural subtraction never truncates. -/
def ieStep (factors : List (ℕ × ℕ)) (n : ℕ) (result mask : ℕ) : ℕ :=
  let sequences := power_mod (reduced_divisor_count factors mask 0) n MOD
  if bitCount mask % 2 = 1 then (result + MOD - sequences) % MOD
  else (result + sequences) % MOD

/-- The full inclusion-exclusion computation of `count_sequences` after the
guard: total divisor count `D = prod (e_i + 1)`, baseline `D^n mod MOD`, then
one `ieStep` for each `mask` in `range(1, 1 << num_primes)`. -/
def ie_computation (factors : List (ℕ × ℕ)) (n : ℕ) : ℕ :=
  let divisor_count := (factors.map fun pe => pe.2 + 1).prod
  let total_sequences := power_mod divisor_count n MOD
  (List.range' 1 (2 ^ factors.length - 1)).foldl (ieStep factors n) total_sequences

/-- `count_sequences(n, y)` from the source: answer for `y = 1` directly,
otherwise factor `y`, short-circuit to 0 when more than 20 distinct primes
occur, else run the inclusion-exclusion computation. -/
def count_sequences (n y : ℕ) : ℕ :=
  if y = 1 then (if 1 ≤ n then 1 else 0)
  else if 20 < (prime_factors y).length then 0
  else ie_computation (prime_factors y) n

/-- The mathematical object the program is specified to count: length-`n`
sequences of positive integers whose lcm is exactly `y`.  Every entry of
such a sequence divides the lcm, hence lies in `[1, y]`, so the finset below
contains all of them (see `mem_lcmSeqs`). -/
def lcmSeqs (n y : ℕ) : Finset (Fin n → ℕ) :=
  (Fintype.piFinset fun _ : Fin n => Finset.Icc 1 y).filter
    fun a => Finset.univ.lcm a = y

/-- The same set presented over divisors of `y`; used in the counting
arguments.  Equal to `lcmSeqs n y` for `1 ≤ y` (see `lcmSeqs_eq_divSeqs`). -/
def divSeqs (n y : ℕ) : Finset (Fin n → ℕ) :=
  (Fintype.piFinset fun _ : Fin n => Nat.divisors y).filter
    fun a => Finset.univ.lcm a = y

/-! ## Correctness of `power_mod` -/

lemma powerModAuxF_spec (f : ℕ) : ∀ b e r m, e ≤ f → 2 ≤ m → r < m →
    powerModAuxF f b e r m = (r * b ^ e) % m := by
  induction f with
  | zero =>
    intro b e r m he hm hr
    obtain rfl : e = 0 := Nat.le_zero.mp he
    simp [powerModAuxF, Nat.mod_eq_of_lt hr]
  | succ f ih =>
    intro b e r m he hm hr
    rcases Nat.eq_zero_or_pos e with rfl | h0
    · simp [powerModAuxF, Nat.mod_eq_of_lt hr]
    · have hstep : powerModAuxF (f + 1) b e r m
          = powerModAuxF f ((b * b) % m) (e / 2)
              (if e % 2 = 1 then (r * b) % m else r) m := by
        simp [powerModAuxF, h0]
      have hf : e / 2 ≤ f := by omega
      have hr2 : (if e % 2 = 1 then (r * b) % m else r) < m := by
        split
        · exact Nat.mod_lt _ (by omega)
        · exact hr
      rw [hstep, ih _ _ _ _ hf hm hr2]
      have hb : ((b * b) % m : ℕ) ≡ b * b [MOD m] := Nat.mod_modEq _ _
      have hrr : (if e % 2 = 1 then (r * b) % m else r) ≡ r * b ^ (e % 2) [MOD m] := by
        split
        · next h => rw [h, pow_one]; exact Nat.mod_modEq _ _
        · next h =>
            have : e % 2 = 0 := by omega
            rw [this, pow_zero, mul_one]
      have key : (if e % 2 = 1 then (r * b) % m else r) * ((b * b) % m) ^ (e / 2)
          ≡ r * b ^ e [MOD m] := by
        have h1 := hrr.mul (hb.pow (e / 2))
        have h2 : r * b ^ (e % 2) * (b * b) ^ (e / 2) = r * b ^ e := by
          have hbb : b * b = b ^ 2 := by ring
          have hsplit : e % 2 + 2 * (e / 2) = e := by omega
          rw [hbb, ← pow_mul, mul_assoc, ← pow_add, hsplit]
        exact h2 ▸ h1
      exact key

/-- `power_mod` computes modular exponentiation: for any modulus `m ≥ 2`,
`power_mod b e m = b ^ e % m`. -/
lemma power_mod_spec (b e m : ℕ) (hm : 2 ≤ m) : power_mod b e m = b ^ e % m := by
  rw [power_mod, powerModAuxF_spec e (b % m) e 1 m le_rfl hm (by omega), one_mul,
    ← Nat.pow_mod]

lemma power_mod_lt (b e m : ℕ) (hm : 2 ≤ m) : power_mod b e m < m := by
  rw [power_mod_spec b e m hm]
  exact Nat.mod_lt _ (by omega)

lemma two_le_MOD : 2 ≤ MOD := by decide

/-! ## The popcount function `bitCount` -/

lemma bitCountF_zero (f : ℕ) : bitCountF f 0 = 0 := by
  cases f <;> simp [bitCountF]

lemma bitCountF_congr : ∀ (n f g : ℕ), n ≤ f → n ≤ g → bitCountF f n = bitCountF g n := by
  intro n
  induction n using Nat.strong_induction_on with
  | _ n ih =>
    intro f g hf hg
    rcases Nat.eq_zero_or_pos n with rfl | h0
    · rw [bitCountF_zero, bitCountF_zero]
    · obtain ⟨f, rfl⟩ : ∃ f0, f = f0 + 1 := ⟨f - 1, by omega⟩
      obtain ⟨g, rfl⟩ : ∃ g0, g = g0 + 1 := ⟨g - 1, by omega⟩
      simp only [bitCountF, if_pos h0]
      have hlt : n / 2 < n := Nat.div_lt_self h0 one_lt_two
      rw [ih (n / 2) hlt f g (by omega) (by omega)]

lemma bitCount_rec (n : ℕ) (h : 0 < n) : bitCount n = bitCount (n / 2) + n % 2 := by
  obtain ⟨m, rfl⟩ : ∃ m, n = m + 1 := ⟨n - 1, by omega⟩
  show bitCountF (m + 1) (m + 1) = _
  simp only [bitCountF, if_pos h]
  rw [bitCountF_congr ((m + 1) / 2) m ((m + 1) / 2) (by omega) le_rfl]
  rfl

lemma bitCount_two_mul (m : ℕ) : bitCount (2 * m) = bitCount m := by
  rcases Nat.eq_zero_or_pos m with rfl | h0
  · rfl
  · rw [bitCount_rec (2 * m) (by omega)]
    simp [Nat.mul_div_cancel_left _ (by norm_num : (0:ℕ) < 2), Nat.mul_mod_right]

lemma bitCount_two_mul_add_one (m : ℕ) : bitCount (2 * m + 1) = bitCount m + 1 := by
  rw [bitCount_rec (2 * m + 1) (by omega)]
  congr 1
  · congr 1
    omega
  · omega

/-! ## The trial-division inner loop `divideOut` -/

lemma divideOutF_spec : ∀ (f n d : ℕ), n ≤ f → 1 ≤ n → 2 ≤ d →
    n = d ^ (divideOutF f d n).1 * (divideOutF f d n).2 ∧
      ¬ d ∣ (divideOutF f d n).2 ∧ 1 ≤ (divideOutF f d n).2 := by
  intro f
  induction f with
  | zero => intro n d hn h1 _; omega
  | succ f ih =>
    intro n d hn h1 hd
    by_cases hdvd : n % d = 0
    · have hguard : 0 < n ∧ 1 < d ∧ n % d = 0 := ⟨h1, by omega, hdvd⟩
      have hdn : d ∣ n := Nat.dvd_iff_mod_eq_zero.mpr hdvd
      have hdle : d ≤ n := Nat.le_of_dvd h1 hdn
      have hpos : 1 ≤ n / d := Nat.div_pos hdle (by omega)
      have hlt : n / d < n := Nat.div_lt_self h1 (by omega)
      have hstep : divideOutF (f + 1) d n
          = ((divideOutF f d (n / d)).1 + 1, (divideOutF f d (n / d)).2) := by
        simp [divideOutF, hguard]
      obtain ⟨heq, hnd, hge⟩ := ih (n / d) d (by omega) hpos hd
      refine ⟨?_, by rw [hstep]; exact hnd, by rw [hstep]; exact hge⟩
      rw [hstep]
      calc n = d * (n / d) := (Nat.mul_div_cancel' hdn).symm
        _ = d * (d ^ (divideOutF f d (n / d)).1 * (divideOutF f d (n / d)).2) := by
              rw [← heq]
        _ = d ^ ((divideOutF f d (n / d)).1 + 1) * (divideOutF f d (n / d)).2 := by
              ring
    · have hstep : divideOutF (f + 1) d n = (0, n) := by
        simp [divideOutF, hdvd]
      rw [hstep]
      exact ⟨by simp, fun h => hdvd (Nat.dvd_iff_mod_eq_zero.mp h), h1⟩

lemma divideOut_spec (d n : ℕ) (hn : 1 ≤ n) (hd : 2 ≤ d) :
    n = d ^ (divideOut d n).1 * (divideOut d n).2 ∧
      ¬ d ∣ (divideOut d n).2 ∧ 1 ≤ (divideOut d n).2 :=
  divideOutF_spec n n d le_rfl hn hd

lemma divideOut_snd_dvd (d n : ℕ) (hn : 1 ≤ n) (hd : 2 ≤ d) :
    (divideOut d n).2 ∣ n := by
  obtain ⟨heq, -, -⟩ := divideOut_spec d n hn hd
  exact Dvd.intro _ (by rw [mul_comm] at heq; exact heq.symm)

lemma divideOut_snd_le (d n : ℕ) (hn : 1 ≤ n) (hd : 2 ≤ d) :
    (divideOut d n).2 ≤ n :=
  Nat.le_of_dvd hn (divideOut_snd_dvd d n hn hd)

lemma divideOut_fst_pos (d n : ℕ) (hn : 1 ≤ n) (hd : 2 ≤ d) (hdvd : d ∣ n) :
    1 ≤ (divideOut d n).1 := by
  obtain ⟨heq, hnd, -⟩ := divideOut_spec d n hn hd
  by_contra h
  obtain h0 : (divideOut d n).1 = 0 := by omega
  rw [h0, pow_zero, one_mul] at heq
  exact hnd (heq ▸ hdvd)

lemma divideOut_snd_le_div (d n : ℕ) (hn : 1 ≤ n) (hd : 2 ≤ d) (hdvd : d ∣ n) :
    (divideOut d n).2 ≤ n / d := by
  obtain ⟨heq, -, -⟩ := divideOut_spec d n hn hd
  have h1 := divideOut_fst_pos d n hn hd hdvd
  rw [Nat.le_div_iff_mul_le (by omega)]
  calc (divideOut d n).2 * d = d ^ 1 * (divideOut d n).2 := by ring
    _ ≤ d ^ (divideOut d n).1 * (divideOut d n).2 := by
        have := (divideOut_spec d n hn hd).2.2
        exact Nat.mul_le_mul_right _ (Nat.pow_le_pow_right (by omega) h1)
    _ = n := heq.symm

/-! ## Correctness of the trial-division loop `prime_factors` -/

/-- When the trial-division loop exits (no remaining candidate divisor below
`d` and `n < d * d`), a leftover value `n > 1` is prime and at least `d`. -/
lemma leftover_prime (n d : ℕ) (h1 : 1 < n) (hd : 2 ≤ d) (hlt : n < d * d)
    (hinv : ∀ m, 2 ≤ m → m < d → ¬ m ∣ n) : n.Prime ∧ d ≤ n := by
  have hdn : d ≤ n := by
    by_contra h
    exact hinv n (by omega) (by omega) dvd_rfl
  refine ⟨?_, hdn⟩
  by_contra hnp
  have hp := Nat.minFac_prime (show n ≠ 1 by omega)
  have hsq := Nat.minFac_sq_le_self (show 0 < n by omega) hnp
  have hmf : n.minFac < d := by
    by_contra h
    have : d ^ 2 ≤ n.minFac ^ 2 := Nat.pow_le_pow_left (by omega) 2
    have : d * d ≤ n := by
      calc d * d = d ^ 2 := by ring
        _ ≤ n.minFac ^ 2 := this
        _ ≤ n := hsq
    omega
  exact hinv n.minFac hp.two_le hmf (Nat.minFac_dvd n)

/-- Master invariant for the outer trial-division loop: starting from value
`n ≥ 1` and candidate divisor `d ≥ 2`, with no divisor of `n` in `[2, d)`
and fuel dominating `n - d`, the produced association list has strictly
increasing keys, prime keys that are at least `d` with positive exponents,
and its product of prime powers reconstructs `n`. -/
lemma factorAuxF_spec : ∀ (f n d : ℕ), n - d ≤ f → 1 ≤ n → 2 ≤ d →
    (∀ m, 2 ≤ m → m < d → ¬ m ∣ n) →
    List.Chain' (fun a b : ℕ × ℕ => a.1 < b.1) (factorAuxF f n d) ∧
      (∀ pe ∈ factorAuxF f n d, pe.1.Prime ∧ 1 ≤ pe.2 ∧ d ≤ pe.1) ∧
      ((factorAuxF f n d).map fun pe => pe.1 ^ pe.2).prod = n := by
  intro f
  induction f with
  | zero =>
    intro n d hfuel h1 hd hinv
    have hnd : n ≤ d := by omega
    have h0 : factorAuxF 0 n d = if 1 < n then [(n, 1)] else [] := rfl
    rw [h0]
    by_cases hn1 : 1 < n
    · obtain ⟨hp, hdn⟩ := leftover_prime n d hn1 hd (by nlinarith) hinv
      simp only [if_pos hn1]
      refine ⟨List.chain'_singleton _, ?_, by simp⟩
      intro pe hpe
      rw [List.mem_singleton] at hpe
      subst hpe
      exact ⟨hp, le_rfl, hdn⟩
    · obtain rfl : n = 1 := by omega
      simp
  | succ f ih =>
    intro n d hfuel h1 hd hinv
    by_cases hle : d * d ≤ n
    · have hd1 : d < n := by nlinarith
      obtain ⟨heq, hndvd, hm1⟩ := divideOut_spec d n h1 hd
      set e := (divideOut d n).1 with he
      set m := (divideOut d n).2 with hm
      have hmdvd : m ∣ n := divideOut_snd_dvd d n h1 hd
      have hinv2 : ∀ q, 2 ≤ q → q < d + 1 → ¬ q ∣ m := by
        intro q hq2 hqd hqm
        rcases Nat.lt_or_ge q d with hqlt | hqge
        · exact hinv q hq2 hqlt (hqm.trans hmdvd)
        · obtain rfl : q = d := by omega
          exact hndvd hqm
      have hfuel2 : m - (d + 1) ≤ f := by
        by_cases hdvd : d ∣ n
        · have h2 := divideOut_snd_le_div d n h1 hd hdvd
          have h3 : n / d ≤ n / 2 := Nat.div_le_div_left hd (by omega)
          have h4 : 2 * (n / 2) ≤ n := Nat.mul_div_le n 2
          have h5 : 2 * d ≤ n := le_trans (Nat.mul_le_mul_right d hd) hle
          omega
        · have he0 : e = 0 := by
            by_contra hne
            refine hdvd ?_
            rw [heq]
            exact Dvd.dvd.mul_right (dvd_pow_self d hne) m
          have hmn : m = n := by rw [heq, he0, pow_zero, one_mul]
          omega
      obtain ⟨hch, hmem, hprod⟩ := ih m (d + 1) hfuel2 hm1 (by omega) hinv2
      have hstep : factorAuxF (f + 1) n d
          = (if e = 0 then [] else [(d, e)]) ++ factorAuxF f m (d + 1) := by
        show (if d * d ≤ n then _ else _) = _
        rw [if_pos hle]
      rw [hstep]
      by_cases he0 : e = 0
      · have hmn : m = n := by rw [heq, he0, pow_zero, one_mul]
        simp only [if_pos he0, List.nil_append]
        refine ⟨hch, ?_, by rw [hprod, hmn]⟩
        intro pe hpe
        obtain ⟨hp, hpe1, hpd⟩ := hmem pe hpe
        exact ⟨hp, hpe1, by omega⟩
      · have hdvdn : d ∣ n := by
          rw [heq]
          exact Dvd.dvd.mul_right
            (dvd_pow_self d he0) _
        have hdp : d.Prime := by
          rw [Nat.prime_def_lt]
          refine ⟨hd, ?_⟩
          intro q hqd hqdvd
          by_contra hq1
          have hq0 : q ≠ 0 := by
            rintro rfl
            rw [Nat.zero_dvd] at hqdvd
            omega
          exact hinv q (by omega) hqd (hqdvd.trans hdvdn)
        simp only [if_neg he0, List.cons_append, List.nil_append]
        refine ⟨?_, ?_, ?_⟩
        · rw [List.chain'_cons']
          refine ⟨?_, hch⟩
          intro b hb
          have hbmem : b ∈ factorAuxF f m (d + 1) := List.mem_of_mem_head? hb
          have := (hmem b hbmem).2.2
          omega
        · intro pe hpe
          rcases List.mem_cons.mp hpe with rfl | hpe2
          · exact ⟨hdp, by omega, le_rfl⟩
          · obtain ⟨hp, hpe1, hpd⟩ := hmem pe hpe2
            exact ⟨hp, hpe1, by omega⟩
        · simp only [List.map_cons, List.prod_cons, hprod]
          exact heq.symm
    · have hstep : factorAuxF (f + 1) n d = if 1 < n then [(n, 1)] else [] := by
        show (if d * d ≤ n then _ else _) = _
        rw [if_neg hle]
      rw [hstep]
      by_cases hn1 : 1 < n
      · obtain ⟨hp, hdn⟩ := leftover_prime n d hn1 hd (by omega) hinv
        simp only [if_pos hn1]
        refine ⟨List.chain'_singleton _, ?_, by simp⟩
        intro pe hpe
        rw [List.mem_singleton] at hpe
        subst hpe
        exact ⟨hp, le_rfl, hdn⟩
      · obtain rfl : n = 1 := by omega
        simp

/-- Correctness of `prime_factors`: for `n ≥ 1` the returned association
list has strictly increasing prime keys, positive exponents, and multiplies
back to `n`. -/
lemma prime_factors_spec (n : ℕ) (hn : 1 ≤ n) :
    List.Chain' (fun a b : ℕ × ℕ => a.1 < b.1) (prime_factors n) ∧
      (∀ pe ∈ prime_factors n, pe.1.Prime ∧ 1 ≤ pe.2) ∧
      ((prime_factors n).map fun pe => pe.1 ^ pe.2).prod = n := by
  obtain ⟨hch, hmem, hprod⟩ := factorAuxF_spec n n 2 (by omega) hn le_rfl
    (by intro m hm2 hm; omega)
  exact ⟨hch, fun pe hpe => ⟨(hmem pe hpe).1, (hmem pe hpe).2.1⟩, hprod⟩

lemma prime_factors_one : prime_factors 1 = [] := by decide

/-! ## Bridge from the factor list to `Nat.factorization` -/

lemma keys_nodup (l : List (ℕ × ℕ))
    (hch : List.Chain' (fun a b : ℕ × ℕ => a.1 < b.1) l) :
    (l.map Prod.fst).Nodup := by
  haveI : IsTrans (ℕ × ℕ) (fun a b : ℕ × ℕ => a.1 < b.1) :=
    ⟨fun _ _ _ h1 h2 => lt_trans h1 h2⟩
  have hpw : List.Pairwise (fun a b : ℕ × ℕ => a.1 < b.1) l :=
    List.chain'_iff_pairwise.mp hch
  rw [List.nodup_iff_sublist]
  intro a hsub
  have hmap : List.Pairwise (· < ·) (l.map Prod.fst) := List.pairwise_map.mpr hpw
  have := hmap.sublist hsub
  simp at this

/-- For an association list with distinct prime keys and positive exponents,
the factorization of the product of its prime powers is read off the list:
its `Finsupp.prod` along any `f` is the list product of `f` over entries,
and its prime-factor set is the key set. -/
lemma list_fact_prod {M : Type*} [CommMonoid M] (f : ℕ → ℕ → M) :
    ∀ l : List (ℕ × ℕ), (∀ pe ∈ l, pe.1.Prime ∧ 1 ≤ pe.2) →
      (l.map Prod.fst).Nodup →
      (((l.map fun pe : ℕ × ℕ => pe.1 ^ pe.2).prod).factorization).prod f
          = (l.map fun pe : ℕ × ℕ => f pe.1 pe.2).prod ∧
        ((l.map fun pe : ℕ × ℕ => pe.1 ^ pe.2).prod).primeFactors
          = (l.map Prod.fst).toFinset := by
  intro l
  induction l with
  | nil => simp
  | cons pe rest ih =>
    intro hmem hnd
    obtain ⟨hp, he⟩ := hmem pe (List.mem_cons_self pe rest)
    have hmem2 : ∀ qe ∈ rest, qe.1.Prime ∧ 1 ≤ qe.2 :=
      fun qe hqe => hmem qe (List.mem_cons_of_mem pe hqe)
    have hnd2 : (rest.map Prod.fst).Nodup := (List.nodup_cons.mp hnd).2
    have hnotmem : pe.1 ∉ rest.map Prod.fst := (List.nodup_cons.mp hnd).1
    obtain ⟨ihprod, ihpf⟩ := ih hmem2 hnd2
    set r := (rest.map fun pe : ℕ × ℕ => pe.1 ^ pe.2).prod with hr
    have hrpos : 0 < r := by
      apply List.prod_pos
      intro a ha
      simp only [List.mem_map] at ha
      obtain ⟨qe, hqe, rfl⟩ := ha
      exact pow_pos (hmem2 qe hqe).1.pos _
    have hpe_ne : pe.1 ^ pe.2 ≠ 0 := pow_ne_zero _ hp.pos.ne'
    have hfact : ((pe.1 ^ pe.2) * r).factorization
        = Finsupp.single pe.1 pe.2 + r.factorization := by
      rw [Nat.factorization_mul hpe_ne hrpos.ne', Nat.Prime.factorization_pow hp]
    have hsupp : (Finsupp.single pe.1 pe.2).support = {pe.1} :=
      Finsupp.support_single_ne_zero _ (by omega)
    have hdisj : Disjoint (Finsupp.single pe.1 pe.2).support
        r.factorization.support := by
      rw [hsupp, Nat.support_factorization, ihpf]
      simp only [Finset.disjoint_singleton_left, List.mem_toFinset]
      exact hnotmem
    constructor
    · simp only [List.map_cons, List.prod_cons]
      rw [hfact, Finsupp.prod_add_index_of_disjoint hdisj, ihprod]
      congr 1
      rw [Finsupp.prod, hsupp, Finset.prod_singleton, Finsupp.single_eq_same]
    · simp only [List.map_cons, List.prod_cons, List.toFinset_cons]
      rw [Nat.primeFactors_mul hpe_ne hrpos.ne', ihpf,
        Nat.primeFactors_prime_pow (by omega) hp]
      rw [← Finset.insert_eq]

lemma prime_factors_fact_prod {M : Type*} [CommMonoid M] (f : ℕ → ℕ → M)
    (y : ℕ) (hy : 1 ≤ y) :
    y.factorization.prod f = ((prime_factors y).map fun pe => f pe.1 pe.2).prod := by
  obtain ⟨hch, hmem, hprod⟩ := prime_factors_spec y hy
  have := (list_fact_prod f (prime_factors y) hmem (keys_nodup _ hch)).1
  rw [hprod] at this
  exact this

lemma prime_factors_keys_toFinset (y : ℕ) (hy : 1 ≤ y) :
    ((prime_factors y).map Prod.fst).toFinset = y.primeFactors := by
  obtain ⟨hch, hmem, hprod⟩ := prime_factors_spec y hy
  have := (list_fact_prod (fun p k => p ^ k) (prime_factors y) hmem (keys_nodup _ hch)).2
  rw [hprod] at this
  exact this.symm

lemma prime_factors_length (y : ℕ) (hy : 1 ≤ y) :
    (prime_factors y).length = y.primeFactors.card := by
  obtain ⟨hch, -, -⟩ := prime_factors_spec y hy
  rw [← prime_factors_keys_toFinset y hy,
    List.toFinset_card_of_nodup (keys_nodup _ hch), List.length_map]

/-! ## Counting the sequences with a given lcm -/

lemma mem_divSeqs {n y : ℕ} (a : Fin n → ℕ) :
    a ∈ divSeqs n y ↔ (∀ i, a i ∈ y.divisors) ∧ Finset.univ.lcm a = y := by
  rw [divSeqs, Finset.mem_filter, Fintype.mem_piFinset]

/-- `lcmSeqs n y` is exactly the set of length-`n` sequences of positive
integers with lcm `y`: the upper bound `y` in its definition costs nothing,
because every entry divides the lcm. -/
lemma mem_lcmSeqs {n y : ℕ} (hy : 1 ≤ y) (a : Fin n → ℕ) :
    a ∈ lcmSeqs n y ↔ (∀ i, 1 ≤ a i) ∧ Finset.univ.lcm a = y := by
  rw [lcmSeqs, Finset.mem_filter, Fintype.mem_piFinset]
  constructor
  · rintro ⟨hmem, hlcm⟩
    exact ⟨fun i => (Finset.mem_Icc.mp (hmem i)).1, hlcm⟩
  · rintro ⟨hpos, hlcm⟩
    refine ⟨fun i => Finset.mem_Icc.mpr ⟨hpos i, ?_⟩, hlcm⟩
    exact Nat.le_of_dvd hy (hlcm ▸ Finset.dvd_lcm (Finset.mem_univ i))

lemma lcmSeqs_eq_divSeqs (n y : ℕ) (hy : 1 ≤ y) : lcmSeqs n y = divSeqs n y := by
  ext a
  rw [mem_lcmSeqs hy a, mem_divSeqs a]
  constructor
  · rintro ⟨hpos, hlcm⟩
    refine ⟨fun i => Nat.mem_divisors.mpr ⟨?_, by omega⟩, hlcm⟩
    exact hlcm ▸ Finset.dvd_lcm (Finset.mem_univ i)
  · rintro ⟨hmem, hlcm⟩
    refine ⟨fun i => ?_, hlcm⟩
    have hdvd := (Nat.mem_divisors.mp (hmem i)).1
    have hne : a i ≠ 0 := by
      intro h0
      rw [h0, Nat.zero_dvd] at hdvd
      omega
    omega

lemma divSeqs_one_card (n : ℕ) : (divSeqs n 1).card = 1 := by
  have hall : ∀ a : Fin n → ℕ,
      a ∈ Fintype.piFinset (fun _ : Fin n => Nat.divisors 1) →
        Finset.univ.lcm a = 1 := by
    intro a ha
    rw [Fintype.mem_piFinset] at ha
    refine Nat.dvd_one.mp (Finset.lcm_dvd ?_)
    intro b _
    have hb := ha b
    rw [Nat.divisors_one, Finset.mem_singleton] at hb
    rw [hb]
  rw [divSeqs, Finset.filter_true_of_mem hall, Fintype.card_piFinset_const,
    Nat.divisors_one, Finset.card_singleton, one_pow]

lemma divSeqs_prime_pow_card (n p e : ℕ) (hp : p.Prime) (he : 1 ≤ e) :
    (divSeqs n (p ^ e)).card = (e + 1) ^ n - e ^ n := by
  have hpe0 : p ^ e ≠ 0 := pow_ne_zero _ hp.pos.ne'
  have hpe10 : p ^ (e - 1) ≠ 0 := pow_ne_zero _ hp.pos.ne'
  have hsplit : ((Fintype.piFinset fun _ : Fin n => Nat.divisors (p ^ e)).filter
        (fun a => Finset.univ.lcm a = p ^ e)).card
      + ((Fintype.piFinset fun _ : Fin n => Nat.divisors (p ^ e)).filter
        (fun a => ¬ Finset.univ.lcm a = p ^ e)).card
      = (Fintype.piFinset fun _ : Fin n => Nat.divisors (p ^ e)).card :=
    Finset.filter_card_add_filter_neg_card_eq_card _
  have hcardT : (Fintype.piFinset fun _ : Fin n => Nat.divisors (p ^ e)).card
      = (e + 1) ^ n := by
    rw [Fintype.card_piFinset_const, Nat.divisors_prime_pow hp, Finset.card_map,
      Finset.card_range]
  have hneg : (Fintype.piFinset fun _ : Fin n => Nat.divisors (p ^ e)).filter
        (fun a => ¬ Finset.univ.lcm a = p ^ e)
      = Fintype.piFinset fun _ : Fin n => Nat.divisors (p ^ (e - 1)) := by
    ext a
    rw [Finset.mem_filter, Fintype.mem_piFinset, Fintype.mem_piFinset]
    constructor
    · rintro ⟨hmem, hne⟩
      have hLdvd : Finset.univ.lcm a ∣ p ^ e :=
        Finset.lcm_dvd fun b _ => (Nat.mem_divisors.mp (hmem b)).1
      obtain ⟨j, hj, hLj⟩ := (Nat.dvd_prime_pow hp).mp hLdvd
      have hjne : j ≠ e := by
        rintro rfl
        exact hne hLj
      have hL1 : Finset.univ.lcm a ∣ p ^ (e - 1) := by
        rw [hLj]
        exact pow_dvd_pow p (by omega)
      intro i
      exact Nat.mem_divisors.mpr
        ⟨(Finset.dvd_lcm (Finset.mem_univ i)).trans hL1, hpe10⟩
    · intro hmem
      have hdvd1 : ∀ i, a i ∣ p ^ (e - 1) :=
        fun i => (Nat.mem_divisors.mp (hmem i)).1
      refine ⟨fun i => Nat.mem_divisors.mpr
          ⟨(hdvd1 i).trans (pow_dvd_pow p (by omega)), hpe0⟩, ?_⟩
      intro heq
      have : p ^ e ∣ p ^ (e - 1) := heq ▸ Finset.lcm_dvd fun b _ => hdvd1 b
      rw [Nat.pow_dvd_pow_iff_le_right hp.one_lt] at this
      omega
  have hcardNeg : ((Fintype.piFinset fun _ : Fin n => Nat.divisors (p ^ e)).filter
        (fun a => ¬ Finset.univ.lcm a = p ^ e)).card = e ^ n := by
    rw [hneg, Fintype.card_piFinset_const, Nat.divisors_prime_pow hp, Finset.card_map,
      Finset.card_range]
    congr 1
    omega
  have hds : (divSeqs n (p ^ e)).card
      = ((Fintype.piFinset fun _ : Fin n => Nat.divisors (p ^ e)).filter
        (fun a => Finset.univ.lcm a = p ^ e)).card := rfl
  omega

/-- The identity `gcd w x * gcd w z = w` for `w` dividing `x * z` with
`x, z` coprime: every divisor of a coprime product splits. -/
lemma gcd_split_eq {x z w : ℕ} (hco : Nat.Coprime x z) (hw : w ∣ x * z) :
    Nat.gcd w x * Nat.gcd w z = w := by
  apply Nat.dvd_antisymm
  · exact Nat.Coprime.mul_dvd_of_dvd_of_dvd
      ((hco.coprime_dvd_left (Nat.gcd_dvd_right w x)).coprime_dvd_right
        (Nat.gcd_dvd_right w z))
      (Nat.gcd_dvd_left w x) (Nat.gcd_dvd_left w z)
  · exact Nat.dvd_gcd_mul_gcd_iff_dvd_mul.mpr hw

/-- Multiplicativity of the sequence count in `y` over coprime factors. -/
lemma divSeqs_card_mul (n : ℕ) : ∀ x z : ℕ, Nat.Coprime x z →
    (divSeqs n (x * z)).card = (divSeqs n x).card * (divSeqs n z).card := by
  intro x z hco
  rcases Nat.eq_zero_or_pos x with rfl | hx
  · obtain rfl : z = 1 := by simpa [Nat.Coprime] using hco
    rw [zero_mul, divSeqs_one_card, mul_one]
  rcases Nat.eq_zero_or_pos z with rfl | hz
  · obtain rfl : x = 1 := by simpa [Nat.Coprime] using hco
    rw [one_mul, divSeqs_one_card, one_mul]
  have hxz : 0 < x * z := Nat.mul_pos hx hz
  rw [← Finset.card_product]
  apply Finset.card_nbij'
    (fun a => ((fun k => Nat.gcd (a k) x), (fun k => Nat.gcd (a k) z)))
    (fun bc => fun k => bc.1 k * bc.2 k)
  · -- forward map lands in the product
    intro a ha
    rw [mem_divSeqs] at ha
    obtain ⟨hmem, hlcm⟩ := ha
    have hdvd : ∀ k, a k ∣ x * z := fun k => (Nat.mem_divisors.mp (hmem k)).1
    set Lx := Finset.univ.lcm (fun k => Nat.gcd (a k) x) with hLxdef
    set Lz := Finset.univ.lcm (fun k => Nat.gcd (a k) z) with hLzdef
    have hLxdvd : Lx ∣ x := Finset.lcm_dvd fun b _ => Nat.gcd_dvd_right _ _
    have hLzdvd : Lz ∣ z := Finset.lcm_dvd fun b _ => Nat.gcd_dvd_right _ _
    have hxz_dvd : x * z ∣ Lx * Lz := by
      rw [← hlcm]
      apply Finset.lcm_dvd
      intro b _
      rw [← gcd_split_eq hco (hdvd b)]
      exact mul_dvd_mul (Finset.dvd_lcm (Finset.mem_univ b))
        (Finset.dvd_lcm (Finset.mem_univ b))
    have heq : Lx * Lz = x * z :=
      Nat.dvd_antisymm (mul_dvd_mul hLxdvd hLzdvd) hxz_dvd
    have hLxpos : 0 < Lx := by
      rcases Nat.eq_zero_or_pos Lx with h0 | h
      · rw [h0, zero_mul] at heq
        omega
      · exact h
    have hLzpos : 0 < Lz := by
      rcases Nat.eq_zero_or_pos Lz with h0 | h
      · rw [h0, mul_zero] at heq
        omega
      · exact h
    obtain ⟨s, hs⟩ := hLxdvd
    obtain ⟨t, ht⟩ := hLzdvd
    have hLx : Lx = x := by
      apply Nat.dvd_antisymm ⟨s, hs⟩
      refine ⟨t, Nat.eq_of_mul_eq_mul_right hLzpos ?_⟩
      calc Lx * Lz = x * z := heq
        _ = x * (Lz * t) := by rw [← ht]
        _ = x * t * Lz := by ring
    have hLz : Lz = z := by
      apply Nat.dvd_antisymm ⟨t, ht⟩
      refine ⟨s, Nat.eq_of_mul_eq_mul_left hLxpos ?_⟩
      calc Lx * Lz = x * z := heq
        _ = Lx * s * z := by rw [← hs]
        _ = Lx * (z * s) := by ring
    rw [Finset.mem_product]
    constructor
    · rw [mem_divSeqs]
      exact ⟨fun k => Nat.mem_divisors.mpr ⟨Nat.gcd_dvd_right _ _, hx.ne'⟩, hLx⟩
    · rw [mem_divSeqs]
      exact ⟨fun k => Nat.mem_divisors.mpr ⟨Nat.gcd_dvd_right _ _, hz.ne'⟩, hLz⟩
  · -- backward map lands in `divSeqs n (x * z)`
    intro bc hbc
    rw [Finset.mem_product] at hbc
    obtain ⟨hb, hc⟩ := hbc
    rw [mem_divSeqs] at hb hc
    obtain ⟨hbmem, hblcm⟩ := hb
    obtain ⟨hcmem, hclcm⟩ := hc
    have hbdvd : ∀ k, bc.1 k ∣ x := fun k => (Nat.mem_divisors.mp (hbmem k)).1
    have hcdvd : ∀ k, bc.2 k ∣ z := fun k => (Nat.mem_divisors.mp (hcmem k)).1
    rw [mem_divSeqs]
    refine ⟨fun k => Nat.mem_divisors.mpr
      ⟨mul_dvd_mul (hbdvd k) (hcdvd k), hxz.ne'⟩, ?_⟩
    apply Nat.dvd_antisymm
    · exact Finset.lcm_dvd fun b _ => mul_dvd_mul (hbdvd b) (hcdvd b)
    · apply Nat.Coprime.mul_dvd_of_dvd_of_dvd hco
      · rw [← hblcm]
        apply Finset.lcm_dvd
        intro b _
        exact (dvd_mul_right (bc.1 b) (bc.2 b)).trans
          (Finset.dvd_lcm (Finset.mem_univ b))
      · rw [← hclcm]
        apply Finset.lcm_dvd
        intro b _
        exact (dvd_mul_left (bc.2 b) (bc.1 b)).trans
          (Finset.dvd_lcm (Finset.mem_univ b))
  · -- left inverse
    intro a ha
    rw [mem_divSeqs] at ha
    obtain ⟨hmem, -⟩ := ha
    funext k
    exact gcd_split_eq hco (Nat.mem_divisors.mp (hmem k)).1
  · -- right inverse
    intro bc hbc
    rw [Finset.mem_product] at hbc
    obtain ⟨hb, hc⟩ := hbc
    rw [mem_divSeqs] at hb hc
    have hbdvd : ∀ k, bc.1 k ∣ x := fun k => (Nat.mem_divisors.mp (hb.1 k)).1
    have hcdvd : ∀ k, bc.2 k ∣ z := fun k => (Nat.mem_divisors.mp (hc.1 k)).1
    have h1 : ∀ k, Nat.gcd (bc.1 k * bc.2 k) x = bc.1 k := by
      intro k
      have hcx : Nat.Coprime (bc.2 k) x := hco.symm.coprime_dvd_left (hcdvd k)
      rw [Nat.Coprime.gcd_mul_right_cancel (bc.1 k) hcx]
      exact Nat.gcd_eq_left (hbdvd k)
    have h2 : ∀ k, Nat.gcd (bc.1 k * bc.2 k) z = bc.2 k := by
      intro k
      have hbz : Nat.Coprime (bc.1 k) z := hco.coprime_dvd_left (hbdvd k)
      rw [Nat.Coprime.gcd_mul_left_cancel (bc.2 k) hbz]
      exact Nat.gcd_eq_left (hcdvd k)
    have hfst : (fun k => Nat.gcd (bc.1 k * bc.2 k) x) = bc.1 := funext h1
    have hsnd : (fun k => Nat.gcd (bc.1 k * bc.2 k) z) = bc.2 := funext h2
    calc ((fun k => Nat.gcd (bc.1 k * bc.2 k) x), (fun k => Nat.gcd (bc.1 k * bc.2 k) z))
        = (bc.1, bc.2) := by rw [hfst, hsnd]
      _ = bc := rfl

/-- The count of sequences with lcm exactly `y` is the product over the
prime factorization of `y` of `(e + 1) ^ n - e ^ n`. -/
lemma divSeqs_card_eq (n y : ℕ) (hy : 1 ≤ y) :
    (divSeqs n y).card
      = y.factorization.prod fun _ k => (k + 1) ^ n - k ^ n := by
  have h := Nat.multiplicative_factorization (fun m => (divSeqs n m).card)
    (divSeqs_card_mul n) (divSeqs_one_card n) (show y ≠ 0 by omega)
  refine h.trans ?_
  apply Finsupp.prod_congr
  intro p hp
  have hp' : p.Prime := by
    have : p ∈ y.primeFactors := by
      rwa [← Nat.support_factorization]
    exact Nat.prime_of_mem_primeFactors this
  have hk : 1 ≤ y.factorization p := by
    have := Finsupp.mem_support_iff.mp hp
    omega
  exact divSeqs_prime_pow_card n p _ hp' hk

/-- The sequence count as a product over the `prime_factors` list computed
by the program. -/
lemma lcmSeqs_card_eq (n y : ℕ) (hy : 1 ≤ y) :
    (lcmSeqs n y).card
      = ((prime_factors y).map fun pe => (pe.2 + 1) ^ n - pe.2 ^ n).prod := by
  rw [lcmSeqs_eq_divSeqs n y hy, divSeqs_card_eq n y hy,
    prime_factors_fact_prod (fun _ k => (k + 1) ^ n - k ^ n) y hy]

/-! ## Analysis of the inclusion-exclusion loop -/

/-- Recursive normal form of the per-mask product: bit 0 of the mask decides
the head factor (`e` when set, `e + 1` when clear), and the shifted mask
handles the tail.  `reduced_divisor_count` computes exactly this (see
`reduced_divisor_count_eq`). -/
def maskTerm : List ℕ → ℕ → ℕ
  | [], _ => 1
  | e :: es, m => (if m % 2 = 1 then e else e + 1) * maskTerm es (m / 2)

lemma and_shift_ne_zero (mask i : ℕ) :
    (mask &&& (1 <<< i) ≠ 0) ↔ (mask >>> i) % 2 = 1 := by
  have h1 : Nat.testBit mask i = decide (mask / 2 ^ i % 2 = 1) :=
    @Nat.testBit_to_div_mod i mask
  rw [Nat.one_shiftLeft, Nat.and_two_pow, Nat.shiftRight_eq_div_pow, h1]
  by_cases hbit : mask / 2 ^ i % 2 = 1
  · have hd : decide (mask / 2 ^ i % 2 = 1) = true := decide_eq_true hbit
    rw [hd]
    simp only [Bool.toNat_true, one_mul]
    exact ⟨fun _ => hbit, fun _ => pow_ne_zero i (by omega)⟩
  · have hd : decide (mask / 2 ^ i % 2 = 1) = false := decide_eq_false hbit
    rw [hd]
    simp only [Bool.toNat_false, zero_mul]
    exact ⟨fun h => absurd rfl h, fun h => absurd h hbit⟩

lemma reduced_divisor_count_eq (l : List (ℕ × ℕ)) :
    ∀ i mask, (∀ pe ∈ l, 1 ≤ pe.2) →
      reduced_divisor_count l mask i = maskTerm (l.map Prod.snd) (mask >>> i) := by
  induction l with
  | nil => intro i mask _; rfl
  | cons pe rest ih =>
    intro i mask h
    have hmax : max 1 pe.2 = pe.2 :=
      Nat.max_eq_right (h pe (List.mem_cons_self pe rest))
    have hshift : (mask >>> i) / 2 = mask >>> (i + 1) := by
      rw [Nat.shiftRight_eq_div_pow, Nat.shiftRight_eq_div_pow,
        Nat.div_div_eq_div_mul, pow_succ]
    show (if mask &&& (1 <<< i) ≠ 0 then max 1 pe.2 else pe.2 + 1)
        * reduced_divisor_count rest mask (i + 1)
      = (if (mask >>> i) % 2 = 1 then pe.2 else pe.2 + 1)
        * maskTerm (rest.map Prod.snd) ((mask >>> i) / 2)
    rw [hshift, ih (i + 1) mask (fun qe hqe => h qe (List.mem_cons_of_mem pe hqe))]
    by_cases hbit : (mask >>> i) % 2 = 1
    · rw [if_pos hbit, if_pos ((and_shift_ne_zero mask i).mpr hbit), hmax]
    · rw [if_neg hbit, if_neg (fun hc => hbit ((and_shift_ne_zero mask i).mp hc))]

lemma reduced_divisor_count_zero (l : List (ℕ × ℕ)) :
    ∀ i, reduced_divisor_count l 0 i = (l.map fun pe => pe.2 + 1).prod := by
  induction l with
  | nil => intro i; rfl
  | cons pe rest ih =>
    intro i
    show (if 0 &&& (1 <<< i) ≠ 0 then max 1 pe.2 else pe.2 + 1)
        * reduced_divisor_count rest 0 (i + 1) = _
    rw [List.map_cons, List.prod_cons, ih (i + 1)]
    congr 1
    rw [if_neg]
    simp [Nat.zero_and]

lemma sum_range_two_mul {R : Type*} [AddCommMonoid R] (N : ℕ) (f : ℕ → R) :
    ∑ m in Finset.range (2 * N), f m
      = ∑ m in Finset.range N, (f (2 * m) + f (2 * m + 1)) := by
  induction N with
  | zero => simp
  | succ N ih =>
    have h2 : 2 * (N + 1) = 2 * N + 1 + 1 := by ring
    rw [h2, Finset.sum_range_succ, Finset.sum_range_succ, ih, Finset.sum_range_succ,
      add_assoc]

/-- The alternating-sign sum over all masks of the per-mask reduced divisor
count raised to the `n` factorizes into the product of
`(e + 1) ^ n - e ^ n` over the exponent list: the inclusion-exclusion
identity behind `count_sequences`. -/
lemma maskTerm_sum {R : Type*} [CommRing R] (n : ℕ) :
    ∀ es : List ℕ,
      ∑ mask in Finset.range (2 ^ es.length),
          (-1 : R) ^ bitCount mask * ((maskTerm es mask : ℕ) : R) ^ n
        = (es.map (fun e : ℕ => ((e : R) + 1) ^ n - (e : R) ^ n)).prod := by
  intro es
  induction es with
  | nil =>
    show ∑ mask in Finset.range (2 ^ 0), _ = _
    rw [pow_zero, Finset.sum_range_one]
    show (-1 : R) ^ bitCount 0 * ((maskTerm [] 0 : ℕ) : R) ^ n = ([] : List R).prod
    show (-1 : R) ^ bitCount 0 * ((1 : ℕ) : R) ^ n = 1
    have hbc : bitCount 0 = 0 := rfl
    rw [hbc, pow_zero, Nat.cast_one, one_pow, one_mul]
  | cons e rest ih =>
    have hlen : (2 : ℕ) ^ (e :: rest).length = 2 * 2 ^ rest.length := by
      rw [List.length_cons, pow_succ]
      ring
    rw [hlen, sum_range_two_mul]
    have hpt : ∀ m ∈ Finset.range (2 ^ rest.length),
        ((-1 : R) ^ bitCount (2 * m) * ((maskTerm (e :: rest) (2 * m) : ℕ) : R) ^ n
          + (-1 : R) ^ bitCount (2 * m + 1)
            * ((maskTerm (e :: rest) (2 * m + 1) : ℕ) : R) ^ n)
        = (((e : R) + 1) ^ n - (e : R) ^ n)
            * ((-1 : R) ^ bitCount m * ((maskTerm rest m : ℕ) : R) ^ n) := by
      intro m _
      have h0 : maskTerm (e :: rest) (2 * m) = (e + 1) * maskTerm rest m := by
        show (if (2 * m) % 2 = 1 then e else e + 1) * maskTerm rest ((2 * m) / 2) = _
        rw [Nat.mul_mod_right, Nat.mul_div_cancel_left m (by omega : 0 < 2)]
        rw [if_neg (by omega)]
      have h1 : maskTerm (e :: rest) (2 * m + 1) = e * maskTerm rest m := by
        show (if (2 * m + 1) % 2 = 1 then e else e + 1)
            * maskTerm rest ((2 * m + 1) / 2) = _
        have hmod : (2 * m + 1) % 2 = 1 := by omega
        have hdiv : (2 * m + 1) / 2 = m := by omega
        rw [hmod, hdiv, if_pos rfl]
      rw [h0, h1, bitCount_two_mul, bitCount_two_mul_add_one, Nat.cast_mul,
        Nat.cast_mul, mul_pow, mul_pow, pow_succ]
      push_cast
      ring
    rw [Finset.sum_congr rfl hpt, ← Finset.mul_sum, ih, List.map_cons, List.prod_cons]

lemma ieStep_lt (facs : List (ℕ × ℕ)) (n acc mask : ℕ) :
    ieStep facs n acc mask < MOD := by
  have h2 := two_le_MOD
  unfold ieStep
  split <;> exact Nat.mod_lt _ (by omega)

lemma natCast_mod_MOD (x : ℕ) : ((x % MOD : ℕ) : ZMod MOD) = (x : ZMod MOD) :=
  (ZMod.natCast_eq_natCast_iff _ _ _).mpr (Nat.mod_modEq x MOD)

lemma foldl_ieStep_spec (facs : List (ℕ × ℕ)) (n : ℕ) :
    ∀ (L : List ℕ) (acc : ℕ), acc < MOD →
      (L.foldl (ieStep facs n) acc < MOD) ∧
      (((L.foldl (ieStep facs n) acc : ℕ) : ZMod MOD)
        = ((acc : ℕ) : ZMod MOD)
          + (L.map fun mask => (-1 : ZMod MOD) ^ bitCount mask
              * ((reduced_divisor_count facs mask 0 : ℕ) : ZMod MOD) ^ n).sum) := by
  intro L
  induction L with
  | nil =>
    intro acc h
    refine ⟨h, ?_⟩
    rw [List.foldl_nil, List.map_nil, List.sum_nil, add_zero]
  | cons mask rest ih =>
    intro acc hacc
    rw [List.foldl_cons]
    obtain ⟨hlt, hcast⟩ := ih (ieStep facs n acc mask) (ieStep_lt facs n acc mask)
    refine ⟨hlt, ?_⟩
    rw [hcast, List.map_cons, List.sum_cons]
    have hseq := power_mod_spec (reduced_divisor_count facs mask 0) n MOD two_le_MOD
    have hseqlt := power_mod_lt (reduced_divisor_count facs mask 0) n MOD two_le_MOD
    have hstep : ((ieStep facs n acc mask : ℕ) : ZMod MOD)
        = (acc : ZMod MOD) + (-1 : ZMod MOD) ^ bitCount mask
            * ((reduced_divisor_count facs mask 0 : ℕ) : ZMod MOD) ^ n := by
      unfold ieStep
      split
      · next hodd =>
          rw [natCast_mod_MOD, Nat.cast_sub (by omega), Nat.cast_add, ZMod.natCast_self,
            add_zero, hseq, natCast_mod_MOD, Nat.cast_pow]
          have : (-1 : ZMod MOD) ^ bitCount mask = -1 :=
            Odd.neg_one_pow (Nat.odd_iff.mpr hodd)
          rw [this]
          ring
      · next heven =>
          rw [natCast_mod_MOD, Nat.cast_add, hseq, natCast_mod_MOD, Nat.cast_pow]
          have : (-1 : ZMod MOD) ^ bitCount mask = 1 :=
            Even.neg_one_pow (Nat.even_iff.mpr (by omega))
          rw [this]
          ring
    rw [hstep]
    ring

lemma list_range'_map_sum {R : Type*} [AddCommMonoid R] (g : ℕ → R) :
    ∀ m : ℕ, ((List.range' 1 m).map g).sum = ∑ j in Finset.range m, g (j + 1) := by
  intro m
  induction m with
  | zero => simp
  | succ m ih =>
    rw [List.range'_concat, List.map_append, List.sum_append, ih,
      Finset.sum_range_succ]
    simp [add_comm]

lemma ie_computation_lt (facs : List (ℕ × ℕ)) (n : ℕ) :
    ie_computation facs n < MOD := by
  unfold ie_computation
  exact (foldl_ieStep_spec facs n _ _
    (power_mod_lt _ n MOD two_le_MOD)).1

/-- The value computed by the inclusion-exclusion loop, read in
`ZMod MOD`: it is the product over the factor list of
`(e + 1) ^ n - e ^ n`. -/
lemma ie_computation_cast (facs : List (ℕ × ℕ)) (n : ℕ)
    (hpos : ∀ pe ∈ facs, 1 ≤ pe.2) :
    ((ie_computation facs n : ℕ) : ZMod MOD)
      = (facs.map (fun pe : ℕ × ℕ =>
          ((pe.2 : ZMod MOD) + 1) ^ n - (pe.2 : ZMod MOD) ^ n)).prod := by
  have hfold := (foldl_ieStep_spec facs n (List.range' 1 (2 ^ facs.length - 1))
    (power_mod (((facs.map fun pe => pe.2 + 1)).prod) n MOD)
    (power_mod_lt _ n MOD two_le_MOD)).2
  have hie : ie_computation facs n
      = (List.range' 1 (2 ^ facs.length - 1)).foldl (ieStep facs n)
          (power_mod (((facs.map fun pe => pe.2 + 1)).prod) n MOD) := rfl
  rw [hie, hfold]
  set g : ℕ → ZMod MOD := fun mask => (-1 : ZMod MOD) ^ bitCount mask
      * ((reduced_divisor_count facs mask 0 : ℕ) : ZMod MOD) ^ n with hg
  have hsum : ((List.range' 1 (2 ^ facs.length - 1)).map g).sum
      = ∑ j in Finset.range (2 ^ facs.length - 1), g (j + 1) :=
    list_range'_map_sum g _
  have hpow : (2 : ℕ) ^ facs.length = (2 ^ facs.length - 1) + 1 := by
    have := Nat.one_le_two_pow (n := facs.length)
    omega
  have hfull : ∑ mask in Finset.range (2 ^ facs.length), g mask
      = (∑ j in Finset.range (2 ^ facs.length - 1), g (j + 1)) + g 0 := by
    rw [hpow, Finset.sum_range_succ']
    simp
  have hterm : ∀ mask, g mask = (-1 : ZMod MOD) ^ bitCount mask
      * ((maskTerm (facs.map Prod.snd) mask : ℕ) : ZMod MOD) ^ n := by
    intro mask
    have heq := reduced_divisor_count_eq facs 0 mask hpos
    rw [Nat.shiftRight_zero] at heq
    simp only [hg]
    rw [heq]
  have hmain : ∑ mask in Finset.range (2 ^ facs.length), g mask
      = (facs.map (fun pe : ℕ × ℕ => ((pe.2 : ZMod MOD) + 1) ^ n - (pe.2 : ZMod MOD) ^ n)).prod := by
    have hlen : facs.length = (facs.map Prod.snd).length := (List.length_map _ _).symm
    calc ∑ mask in Finset.range (2 ^ facs.length), g mask
        = ∑ mask in Finset.range (2 ^ (facs.map Prod.snd).length),
            (-1 : ZMod MOD) ^ bitCount mask
              * ((maskTerm (facs.map Prod.snd) mask : ℕ) : ZMod MOD) ^ n := by
          rw [← hlen]
          exact Finset.sum_congr rfl fun mask _ => hterm mask
      _ = ((facs.map Prod.snd).map
            fun e : ℕ => ((e : ZMod MOD) + 1) ^ n - (e : ZMod MOD) ^ n).prod :=
          maskTerm_sum n (facs.map Prod.snd)
      _ = (facs.map (fun pe : ℕ × ℕ => ((pe.2 : ZMod MOD) + 1) ^ n - (pe.2 : ZMod MOD) ^ n)).prod := by
          rw [List.map_map]
          rfl
  have hg0 : g 0 = ((((facs.map fun pe => pe.2 + 1)).prod : ℕ) : ZMod MOD) ^ n := by
    have hbc0 : bitCount 0 = 0 := rfl
    simp only [hg]
    rw [reduced_divisor_count_zero facs 0, hbc0, pow_zero, one_mul]
  have htot : ((power_mod (((facs.map fun pe => pe.2 + 1)).prod) n MOD : ℕ) : ZMod MOD)
      = ((((facs.map fun pe => pe.2 + 1)).prod : ℕ) : ZMod MOD) ^ n := by
    rw [power_mod_spec _ n MOD two_le_MOD, natCast_mod_MOD, Nat.cast_pow]
  rw [hsum, htot, ← hg0, add_comm (g 0), ← hfull, hmain]

/-! ## Main correctness chain -/

lemma nat_eq_of_cast_eq {a b : ℕ} (ha : a < MOD) (hb : b < MOD)
    (h : (a : ZMod MOD) = (b : ZMod MOD)) : a = b := by
  have hmod : a % MOD = b % MOD := (ZMod.natCast_eq_natCast_iff a b MOD).mp h
  rw [Nat.mod_eq_of_lt ha, Nat.mod_eq_of_lt hb] at hmod
  exact hmod

lemma count_sequences_y_one (n : ℕ) (hn : 1 ≤ n) : count_sequences n 1 = 1 := by
  unfold count_sequences
  rw [if_pos rfl, if_pos hn]

lemma count_sequences_eq_ie (n y : ℕ) (hy1 : y ≠ 1)
    (hcap : (prime_factors y).length ≤ 20) :
    count_sequences n y = ie_computation (prime_factors y) n := by
  unfold count_sequences
  rw [if_neg hy1, if_neg (by omega)]

lemma count_sequences_guard_fires (n y : ℕ) (hy1 : y ≠ 1)
    (hcap : 20 < (prime_factors y).length) :
    count_sequences n y = 0 := by
  unfold count_sequences
  rw [if_neg hy1, if_pos hcap]

lemma lcmSeqs_one_card (n : ℕ) : (lcmSeqs n 1).card = 1 := by
  rw [lcmSeqs_eq_divSeqs n 1 le_rfl, divSeqs_one_card]

/-- The central equality: for `y ≥ 1` within the prime-count cap, and
either `n ≥ 1` or `y > 1`, the program output is the true sequence count
reduced modulo `MOD`.  (The one point excluded, `n = 0` with `y = 1`, is
where the program returns 0 while the empty sequence has lcm 1.) -/
lemma count_sequences_correct (n y : ℕ) (hy : 1 ≤ y)
    (hcap : (prime_factors y).length ≤ 20) (hny : 1 ≤ n ∨ 1 < y) :
    count_sequences n y = (lcmSeqs n y).card % MOD := by
  have hM := two_le_MOD
  by_cases hy1 : y = 1
  · subst hy1
    have hn : 1 ≤ n := by
      rcases hny with h | h
      · exact h
      · omega
    rw [count_sequences_y_one n hn, lcmSeqs_one_card, Nat.mod_eq_of_lt (by omega)]
  · obtain ⟨hch, hmem, hprod⟩ := prime_factors_spec y hy
    have hceq := count_sequences_eq_ie n y hy1 hcap
    have hlt : count_sequences n y < MOD := by
      rw [hceq]
      exact ie_computation_lt _ n
    have hcast := ie_computation_cast (prime_factors y) n
      (fun pe hpe => (hmem pe hpe).2)
    have hcard := lcmSeqs_card_eq n y hy
    have hcardcast : (((lcmSeqs n y).card : ℕ) : ZMod MOD)
        = ((prime_factors y).map (fun pe : ℕ × ℕ =>
            ((pe.2 : ZMod MOD) + 1) ^ n - (pe.2 : ZMod MOD) ^ n)).prod := by
      rw [hcard, Nat.cast_list_prod, List.map_map]
      congr 1
      apply List.map_congr_left
      intro pe hpe
      show (((pe.2 + 1) ^ n - pe.2 ^ n : ℕ) : ZMod MOD) = _
      rw [Nat.cast_sub (Nat.pow_le_pow_left (by omega) n), Nat.cast_pow, Nat.cast_pow,
        Nat.cast_add, Nat.cast_one]
    apply nat_eq_of_cast_eq hlt (Nat.mod_lt _ (by omega))
    rw [natCast_mod_MOD, hcardcast, hceq, hcast]

/-! ## Sum over divisors -/

lemma divSeqs_filter_eq (n y d : ℕ) (hy : 1 ≤ y) (hd : d ∈ y.divisors) :
    (Fintype.piFinset fun _ : Fin n => y.divisors).filter
        (fun a => Finset.univ.lcm a = d) = divSeqs n d := by
  obtain ⟨hddvd, -⟩ := Nat.mem_divisors.mp hd
  have hdpos : 1 ≤ d := by
    rcases Nat.eq_zero_or_pos d with rfl | h
    · rw [Nat.zero_dvd] at hddvd
      omega
    · exact h
  ext a
  rw [Finset.mem_filter, Fintype.mem_piFinset, mem_divSeqs]
  constructor
  · rintro ⟨hmem, hlcm⟩
    exact ⟨fun i => Nat.mem_divisors.mpr
      ⟨hlcm ▸ Finset.dvd_lcm (Finset.mem_univ i), by omega⟩, hlcm⟩
  · rintro ⟨hmem, hlcm⟩
    exact ⟨fun i => Nat.mem_divisors.mpr
      ⟨((Nat.mem_divisors.mp (hmem i)).1).trans hddvd, by omega⟩, hlcm⟩

/-- Partitioning all sequences of divisors of `y` by the value of their lcm:
the sequence counts of the divisors of `y` sum to `D(y) ^ n`. -/
lemma sum_divSeqs_card (n y : ℕ) (hy : 1 ≤ y) :
    ∑ d in y.divisors, (divSeqs n d).card = y.divisors.card ^ n := by
  have hmap : ∀ a : Fin n → ℕ,
      a ∈ (Fintype.piFinset fun _ : Fin n => y.divisors) →
        Finset.univ.lcm a ∈ y.divisors := by
    intro a ha
    rw [Fintype.mem_piFinset] at ha
    exact Nat.mem_divisors.mpr
      ⟨Finset.lcm_dvd fun b _ => (Nat.mem_divisors.mp (ha b)).1, by omega⟩
  have hpart := Finset.card_eq_sum_card_fiberwise hmap
  rw [Fintype.card_piFinset_const] at hpart
  rw [hpart]
  exact Finset.sum_congr rfl fun d hd =>
    (congrArg Finset.card (divSeqs_filter_eq n y d hy hd)).symm

/-! ## The primorial bound for the safety cap -/

/-- The `k`-th prime, for `k ≤ 9`; enough for the `y ≤ 10^9` bound. -/
def nthP : ℕ → ℕ
  | 0 => 2
  | 1 => 3
  | 2 => 5
  | 3 => 7
  | 4 => 11
  | 5 => 13
  | 6 => 17
  | 7 => 19
  | 8 => 23
  | 9 => 29
  | _ => 0

/-- Product of the first `k` primes. -/
def firstPrimesProd : ℕ → ℕ
  | 0 => 1
  | k + 1 => nthP k * firstPrimesProd k

lemma nthP_count : ∀ k, k ≤ 9 → ((Finset.range (nthP k)).filter Nat.Prime).card = k := by
  intro k hk
  interval_cases k <;> decide

lemma firstPrimesProd_le_prod : ∀ k, k ≤ 10 → ∀ S : Finset ℕ, (∀ p ∈ S, p.Prime) →
    k ≤ S.card → firstPrimesProd k ≤ ∏ p in S, p := by
  intro k
  induction k with
  | zero =>
    intro _ S hS _
    exact Finset.one_le_prod' fun p hp => (hS p hp).pos
  | succ k ih =>
    intro hk S hS hcard
    have hsub : S.filter (fun p => p < nthP k)
        ⊆ (Finset.range (nthP k)).filter Nat.Prime := by
      intro p hp
      rw [Finset.mem_filter] at hp
      rw [Finset.mem_filter]
      exact ⟨Finset.mem_range.mpr hp.2, hS p hp.1⟩
    have hcount := nthP_count k (by omega)
    have hlt : (S.filter (fun p => p < nthP k)).card ≤ k := by
      calc (S.filter (fun p => p < nthP k)).card
          ≤ ((Finset.range (nthP k)).filter Nat.Prime).card :=
            Finset.card_le_card hsub
        _ = k := hcount
    have hex : ∃ q ∈ S, ¬ q < nthP k := by
      by_contra hq
      push_neg at hq
      have hfe : S.filter (fun p => p < nthP k) = S :=
        Finset.filter_true_of_mem hq
      rw [hfe] at hlt
      omega
    obtain ⟨q, hqS, hq⟩ := hex
    push_neg at hq
    have herase : k ≤ (S.erase q).card := by
      rw [Finset.card_erase_of_mem hqS]
      omega
    have hSe : ∀ p ∈ S.erase q, p.Prime :=
      fun p hp => hS p (Finset.mem_of_mem_erase hp)
    have hIH := ih (by omega) (S.erase q) hSe herase
    calc firstPrimesProd (k + 1) = nthP k * firstPrimesProd k := rfl
      _ ≤ q * ∏ p in S.erase q, p := Nat.mul_le_mul hq hIH
      _ = ∏ p in S, p := Finset.mul_prod_erase S (fun p => p) hqS

/-- Any `y ≤ 10^9` has at most 9 distinct prime factors: ten distinct
primes multiply to at least 6469693230 > 10^9. -/
lemma length_le_nine (y : ℕ) (hy : 1 ≤ y) (hbound : y ≤ 10 ^ 9) :
    (prime_factors y).length ≤ 9 := by
  by_contra h
  push_neg at h
  rw [prime_factors_length y hy] at h
  have hS : ∀ p ∈ y.primeFactors, p.Prime :=
    fun p hp => Nat.prime_of_mem_primeFactors hp
  have h10 := firstPrimesProd_le_prod 10 le_rfl y.primeFactors hS (by omega)
  have hdvd : ∏ p in y.primeFactors, p ∣ y := Nat.prod_primeFactors_dvd y
  have hle : ∏ p in y.primeFactors, p ≤ y := Nat.le_of_dvd (by omega) hdvd
  have hval : firstPrimesProd 10 = 6469693230 := by decide
  have hb : (10 : ℕ) ^ 9 = 1000000000 := by norm_num
  omega

lemma count_sequences_lt (n y : ℕ) : count_sequences n y < MOD := by
  have hM := two_le_MOD
  unfold count_sequences
  split
  · split <;> omega
  · split
    · omega
    · exact ie_computation_lt _ n

/-! ## The claims -/

/-- C1: for every `n ≥ 1` and `y ≥ 1` such that `y` has at most 20 distinct
prime factors, `count_sequences n y` returns the number of length-`n`
sequences of positive integers with lcm exactly `y`, reduced modulo
`1,000,000,007`. -/
theorem claim_C1 (n y : ℕ) (hn : 1 ≤ n) (hy : 1 ≤ y)
    (hcap : y.primeFactors.card ≤ 20) :
    count_sequences n y = (lcmSeqs n y).card % MOD :=
  count_sequences_correct n y hy
    (by rw [prime_factors_length y hy]; exact hcap) (Or.inl hn)

theorem claim_C1_witness :
    1 ≤ 1 ∧ 1 ≤ 2 ∧ (Nat.primeFactors 2).card ≤ 20 ∧
      count_sequences 1 2 = (lcmSeqs 1 2).card % MOD := by
  have hpf : (Nat.primeFactors 2).card ≤ 20 := by
    rw [Nat.prime_two.primeFactors, Finset.card_singleton]
    omega
  exact ⟨le_rfl, by omega, hpf, claim_C1 1 2 le_rfl (by omega) hpf⟩

/-- C2: for every non-negative base and exponent and every modulus `m > 1`,
`power_mod base e m` equals `base ^ e % m`; in particular exponent 0 yields
1 for every base. -/
theorem claim_C2 (base e m : ℕ) (hm : 1 < m) :
    power_mod base e m = base ^ e % m ∧ power_mod base 0 m = 1 := by
  refine ⟨power_mod_spec base e m hm, ?_⟩
  rw [power_mod_spec base 0 m hm, pow_zero, Nat.mod_eq_of_lt hm]

theorem claim_C2_witness :
    1 < MOD ∧ (power_mod 2 10 MOD = 2 ^ 10 % MOD ∧ power_mod 2 0 MOD = 1) :=
  ⟨by decide, claim_C2 2 10 MOD (by decide)⟩

/-- C3: for every `n ≥ 1`, `prime_factors n` returns an association list
whose keys are pairwise distinct primes, whose exponents are all positive,
and whose product of prime powers reconstructs `n`; for `n = 1` it returns
the empty list. -/
theorem claim_C3 (n : ℕ) (hn : 1 ≤ n) :
    List.Pairwise (fun a b : ℕ × ℕ => a.1 ≠ b.1) (prime_factors n) ∧
      (∀ pe ∈ prime_factors n, pe.1.Prime ∧ 0 < pe.2) ∧
      ((prime_factors n).map fun pe => pe.1 ^ pe.2).prod = n ∧
      (n = 1 → prime_factors n = []) := by
  obtain ⟨hch, hmem, hprod⟩ := prime_factors_spec n hn
  haveI : IsTrans (ℕ × ℕ) (fun a b : ℕ × ℕ => a.1 < b.1) :=
    ⟨fun _ _ _ h1 h2 => lt_trans h1 h2⟩
  have hpw := List.chain'_iff_pairwise.mp hch
  refine ⟨hpw.imp ?_, hmem, hprod, ?_⟩
  · intro a b hab
    omega
  · rintro rfl
    exact prime_factors_one

theorem claim_C3_witness :
    1 ≤ 360 ∧
      (List.Pairwise (fun a b : ℕ × ℕ => a.1 ≠ b.1) (prime_factors 360) ∧
        (∀ pe ∈ prime_factors 360, pe.1.Prime ∧ 0 < pe.2) ∧
        ((prime_factors 360).map fun pe => pe.1 ^ pe.2).prod = 360 ∧
        (360 = 1 → prime_factors 360 = [])) :=
  ⟨by omega, claim_C3 360 (by omega)⟩

/-- C4: for every `n ≥ 1` and `y > 1`, if the number of distinct prime
factors of `y` exceeds 20 then `count_sequences` returns 0 without the
inclusion-exclusion computation; if it is at most 20 the guard does not
fire and the full computation `ie_computation` is performed. -/
theorem claim_C4 (n y : ℕ) (hn : 1 ≤ n) (hy : 1 < y) :
    (20 < (prime_factors y).length → count_sequences n y = 0) ∧
      ((prime_factors y).length ≤ 20 →
        count_sequences n y = ie_computation (prime_factors y) n) :=
  ⟨fun h => count_sequences_guard_fires n y (by omega) h,
    fun h => count_sequences_eq_ie n y (by omega) h⟩

theorem claim_C4_witness :
    1 ≤ 1 ∧ 1 < 40729680599249024150621323470 ∧
      (20 < (prime_factors 40729680599249024150621323470).length ∧
        count_sequences 1 40729680599249024150621323470 = 0) := by
  have hcap : 20 < (prime_factors 40729680599249024150621323470).length := by decide
  exact ⟨le_rfl, by omega, hcap,
    (claim_C4 1 40729680599249024150621323470 le_rfl (by omega)).1 hcap⟩

/-- C5: the two examples of the problem statement reproduce exactly:
`count_sequences 2 6 = 9` and `count_sequences 3 9 = 19`. -/
theorem claim_C5 : count_sequences 2 6 = 9 ∧ count_sequences 3 9 = 19 := by
  exact ⟨by decide, by decide⟩

/-- C6: `count_sequences n 1 = 1` for every `n ≥ 1`, and
`count_sequences n 1 = 0` for every `n < 1` (over `ℕ`, that is `n = 0`). -/
theorem claim_C6 :
    (∀ n, 1 ≤ n → count_sequences n 1 = 1) ∧
      (∀ n, n < 1 → count_sequences n 1 = 0) := by
  constructor
  · exact fun n hn => count_sequences_y_one n hn
  · intro n hn
    obtain rfl : n = 0 := by omega
    decide

theorem claim_C6_witness :
    (1 ≤ 5 ∧ count_sequences 5 1 = 1) ∧ (0 < 1 ∧ count_sequences 0 1 = 0) :=
  ⟨⟨by omega, claim_C6.1 5 (by omega)⟩, ⟨by omega, claim_C6.2 0 (by omega)⟩⟩

/-- C7: for every `n ≥ 1` and `y ≥ 1` within the prime-count cap, the sum
of `count_sequences n d` over the positive divisors `d` of `y` is congruent
modulo `MOD` to `D(y) ^ n`, where `D(y)` is the number of divisors of `y`. -/
theorem claim_C7 (n y : ℕ) (hn : 1 ≤ n) (hy : 1 ≤ y)
    (hcap : y.primeFactors.card ≤ 20) :
    (∑ d in y.divisors, ((count_sequences n d : ℕ) : ZMod MOD))
      = ((y.divisors.card : ℕ) : ZMod MOD) ^ n := by
  have hstep : ∀ d ∈ y.divisors,
      ((count_sequences n d : ℕ) : ZMod MOD)
        = (((divSeqs n d).card : ℕ) : ZMod MOD) := by
    intro d hd
    obtain ⟨hddvd, hy0⟩ := Nat.mem_divisors.mp hd
    have hd1 : 1 ≤ d := by
      rcases Nat.eq_zero_or_pos d with rfl | h
      · rw [Nat.zero_dvd] at hddvd
        omega
      · exact h
    have hcapd : (prime_factors d).length ≤ 20 := by
      rw [prime_factors_length d hd1]
      calc d.primeFactors.card ≤ y.primeFactors.card :=
            Finset.card_le_card (Nat.primeFactors_mono hddvd hy0)
        _ ≤ 20 := hcap
    rw [count_sequences_correct n d hd1 hcapd (Or.inl hn), natCast_mod_MOD,
      lcmSeqs_eq_divSeqs n d hd1]
  rw [Finset.sum_congr rfl hstep, ← Nat.cast_sum, sum_divSeqs_card n y hy,
    Nat.cast_pow]

theorem claim_C7_witness :
    1 ≤ 1 ∧ 1 ≤ 1 ∧ (Nat.primeFactors 1).card ≤ 20 ∧
      (∑ d in (1 : ℕ).divisors, ((count_sequences 1 d : ℕ) : ZMod MOD))
        = (((1 : ℕ).divisors.card : ℕ) : ZMod MOD) ^ 1 := by
  have hc : (Nat.primeFactors 1).card ≤ 20 := by simp
  exact ⟨le_rfl, le_rfl, hc, claim_C7 1 1 le_rfl le_rfl hc⟩

/-- C8: for every `n` and `y` the returned value lies in `[0, MOD - 1]`,
and each step of the inclusion-exclusion accumulation (whose subtraction
adds `MOD` before reducing, so it never truncates) maps a residue below
`MOD` to a residue below `MOD`. -/
theorem claim_C8 :
    (∀ n y, count_sequences n y ≤ MOD - 1) ∧
      (∀ facs n acc mask, acc < MOD → ieStep facs n acc mask < MOD) := by
  have hM := two_le_MOD
  constructor
  · intro n y
    have := count_sequences_lt n y
    omega
  · intro facs n acc mask _
    exact ieStep_lt facs n acc mask

theorem claim_C8_witness :
    count_sequences 2 6 ≤ MOD - 1 ∧
      (0 < MOD ∧ ieStep (prime_factors 6) 2 0 1 < MOD) :=
  ⟨claim_C8.1 2 6, by decide, claim_C8.2 (prime_factors 6) 2 0 1 (by decide)⟩

/-- C9: every `y` with `1 ≤ y ≤ 10^9` has at most 9 distinct prime factors
(the `prime_factors` list has length at most 9), so the safety-cap branch
returning 0 is unreachable there: for `y > 1` the function always runs the
full inclusion-exclusion computation. -/
theorem claim_C9 (n y : ℕ) (hy1 : 1 ≤ y) (hy2 : y ≤ 10 ^ 9) :
    (prime_factors y).length ≤ 9 ∧
      (1 < y → count_sequences n y = ie_computation (prime_factors y) n) := by
  have hlen := length_le_nine y hy1 hy2
  exact ⟨hlen, fun hy => count_sequences_eq_ie n y (by omega) (by omega)⟩

theorem claim_C9_witness :
    1 ≤ 1000000000 ∧ 1000000000 ≤ 10 ^ 9 ∧
      ((prime_factors 1000000000).length ≤ 9 ∧
        (1 < 1000000000 → count_sequences 1 1000000000
          = ie_computation (prime_factors 1000000000) 1)) :=
  ⟨by omega, by norm_num, claim_C9 1 1000000000 (by omega) (by norm_num)⟩

/-- C10: `count_sequences 0 y = 0` for every `y ≥ 1`: the `n < 1` branch
returns 0 at `y = 1`, and for `y > 1` every power term is 1, so the
alternating inclusion-exclusion sum telescopes to `(1 - 1)^k = 0`. -/
theorem claim_C10 (y : ℕ) (hy : 1 ≤ y) : count_sequences 0 y = 0 := by
  by_cases hy1 : y = 1
  · subst hy1
    decide
  · by_cases hcap : (prime_factors y).length ≤ 20
    · rw [count_sequences_correct 0 y hy hcap (Or.inr (by omega))]
      have hcard : (lcmSeqs 0 y).card = 0 := by
        rw [Finset.card_eq_zero, lcmSeqs, Finset.filter_eq_empty_iff]
        intro a _
        intro heq
        rw [Finset.univ_eq_empty, Finset.lcm_empty] at heq
        omega
      rw [hcard, Nat.zero_mod]
    · exact count_sequences_guard_fires 0 y hy1 (by omega)

theorem claim_C10_witness : 1 ≤ 6 ∧ count_sequences 0 6 = 0 :=
  ⟨by omega, claim_C10 6 (by omega)⟩
